import Mathlib

/-!
Verification of the transcript retrieval tool
(src/transcript-recovery/scripts/get_transcript.py).

Strings are modelled as lists of Unicode scalar values (List Char),
matching Python str for all inputs that contain no lone surrogates
(file contents are read with UTF-8 decoding, so they never do).
Python ints are modelled as Int, the filesystem as an explicit list
of directory entries, and printed output as explicit lists of the
print-call payloads for the standard and error streams.
-/

set_option maxHeartbeats 1000000

namespace GetTranscript

/-- Prefix test on character lists (Python startswith / regex anchoring helper). -/
def isPre : List Char → List Char → Bool
  | [], _ => true
  | _ :: _, [] => false
  | a :: as, b :: bs => a == b && isPre as bs

/-- Python substring containment: needle in haystack. -/
def pyIn (needle : List Char) : List Char → Bool
  | [] => needle.isEmpty
  | c :: t => isPre needle (c :: t) || pyIn needle t

/-- Python str.endswith, used to model the glob pattern *.txt. -/
def endsWith (s suffixChars : List Char) : Bool :=
  isPre suffixChars.reverse s.reverse

/-- Python string less-than: lexicographic comparison by code point. -/
def strLt : List Char → List Char → Bool
  | _, [] => false
  | [], _ :: _ => true
  | a :: as, b :: bs =>
    if a.toNat < b.toNat then true
    else if b.toNat < a.toNat then false
    else strLt as bs

/-- Python str.lower, modelled per character (the inputs at issue are ASCII;
Python's full Unicode case mapping is not needed by any claim). -/
def pyLower (s : List Char) : List Char :=
  s.map Char.toLower

/-- Whitespace stripped by Python str.strip() (the ASCII whitespace characters;
the exotic Unicode whitespace Python also strips does not occur here). -/
def pyIsSpace (c : Char) : Bool :=
  c == ' ' || c == '\t' || c == '\n' || c == '\r' || c == '\x0b' || c == '\x0c'

/-- Python str.strip(). -/
def pyStrip (s : List Char) : List Char :=
  ((s.dropWhile pyIsSpace).reverse.dropWhile pyIsSpace).reverse

/-- Python content.split of a string on a line break: always returns at least
one (possibly empty) piece. -/
def splitNl : List Char → List (List Char)
  | [] => [[]]
  | c :: rest =>
    if c = '\n' then [] :: splitNl rest
    else
      match splitNl rest with
      | l :: ls => (c :: l) :: ls
      | [] => [[c]]

/-- Python newline.join over a list of strings. -/
def joinNl : List (List Char) → List Char
  | [] => []
  | [l] => l
  | l :: ls => l ++ '\n' :: joinNl ls

/-- enumerate(xs) starting at a given index. -/
def enumFrom {α : Type} (n : Nat) : List α → List (Nat × α)
  | [] => []
  | a :: as => (n, a) :: enumFrom (n + 1) as

/-- Python slice xs[i:] for an Int index i (negative counts from the end). -/
def pySliceFrom {α : Type} (xs : List α) (i : Int) : List α :=
  if 0 ≤ i then xs.drop i.toNat
  else xs.drop (xs.length - (-i).toNat)

/-- Python slice xs[:i] for an Int index i (negative counts from the end). -/
def pySliceTo {α : Type} (xs : List α) (i : Int) : List α :=
  if 0 ≤ i then xs.take i.toNat
  else xs.take (xs.length - (-i).toNat)

/-- Stable insertion used to model Python sorted(): the new element goes in
front of the first element that is not strictly below it, so that elements
comparing equal keep their original relative order. -/
def insertLt {α : Type} (lt : α → α → Bool) (a : α) : List α → List α
  | [] => [a]
  | b :: bs => if lt b a then b :: insertLt lt a bs else a :: b :: bs

/-- Python sorted() with a strict comparison, as a stable insertion sort. -/
def sortBy {α : Type} (lt : α → α → Bool) : List α → List α
  | [] => []
  | a :: as => insertLt lt a (sortBy lt as)

/-- Value of a hexadecimal digit, as accepted by the escape regex
character class 0-9a-fA-F. -/
def hexVal? (c : Char) : Option Nat :=
  if '0' ≤ c ∧ c ≤ '9' then some (c.toNat - '0'.toNat)
  else if 'a' ≤ c ∧ c ≤ 'f' then some (c.toNat - 'a'.toNat + 10)
  else if 'A' ≤ c ∧ c ≤ 'F' then some (c.toNat - 'A'.toNat + 10)
  else none

/-- The code point of four hex digits, or none when any digit is invalid. -/
def hex4? (d1 d2 d3 d4 : Char) : Option Nat :=
  match hexVal? d1, hexVal? d2, hexVal? d3, hexVal? d4 with
  | some a, some b, some c, some d => some (((a * 16 + b) * 16 + c) * 16 + d)
  | _, _, _, _ => none

/-- The scan of decode_unicode_escapes, structurally recursive on the exact
remaining length so that it stays computable inside the kernel: the first
argument is always the length of the second.  At a match of the escape
pattern the whole match is consumed; at a failed match the single current
character is emitted, exactly the left-to-right non-overlapping scan of
re.sub (a failed match at a backslash cannot restart inside the two marker
characters, since a match begins with a backslash). -/
def decodeAux : List Char → Nat → List Char
  | '\\' :: 'u' :: d1 :: d2 :: d3 :: d4 :: rest, fuel + 6 =>
    match hex4? d1 d2 d3 d4 with
    | some cp =>
      if 0xD800 ≤ cp ∧ cp ≤ 0xDFFF then
        '\\' :: 'u' :: d1 :: d2 :: d3 :: d4 :: decodeAux rest fuel
      else
        Char.ofNat cp :: decodeAux rest fuel
    | none => '\\' :: decodeAux ('u' :: d1 :: d2 :: d3 :: d4 :: rest) (fuel + 5)
  | c :: rest, fuel + 1 => c :: decodeAux rest fuel
  | s, _ => s

/-- decode_unicode_escapes: re.sub of the pattern backslash-u followed by four
hex digits, replacing a match by chr(codepoint) unless the code point lies in
the surrogate range 0xD800-0xDFFF, in which case the match is kept verbatim.
The final encode/decode round trip of the Python source is the identity here
because the guard ensures no lone surrogate is ever produced. -/
def decode_unicode_escapes (s : List Char) : List Char :=
  decodeAux s s.length

/-- One file of the transcript directory /mnt/transcripts: its name, the
stat metadata the listing reports, and the text obtained by reading it with
UTF-8 decoding.  The directory itself is modelled as a List FileInfo. -/
structure FileInfo where
  name : List Char
  size : Nat
  mtime : Nat
  content : List Char
deriving DecidableEq

/-- One dict produced by get_transcript_list: name, size, modification time
and full path.  The isoformat rendering of the timestamp is kept as the raw
stat value; no claim inspects its textual form. -/
structure TEntry where
  name : List Char
  size : Nat
  modified : Nat
  path : List Char
deriving DecidableEq

/-- str(TRANSCRIPTS_DIR / name) for a plain file name. -/
def transcriptsDir : List Char := ('/' :: 'm' :: 'n' :: 't' :: []) ++ "/transcripts/".data

/-- get_transcript_list: glob *.txt in the directory, sorted (Path order in a
single directory is code-point order of the name), skipping journal.txt, each
entry carrying name, size, modification time and path. -/
def get_transcript_list (dir : List FileInfo) : List TEntry :=
  ((sortBy (fun f g : FileInfo => strLt f.name g.name)
      (dir.filter (fun f => endsWith f.name ".txt".data))).filter
    (fun f => !(f.name == "journal.txt".data))).map
    (fun f => ⟨f.name, f.size, f.mtime, transcriptsDir ++ f.name⟩)

/-- The entry picked by get_current_transcript: None when the listing is
empty, otherwise the first element of the listing sorted by name in
descending order (sorted with reverse=True, index 0). -/
def get_current_entry (dir : List FileInfo) : Option TEntry :=
  let ts := get_transcript_list dir
  if ts.isEmpty then none
  else
    match sortBy (fun a b : TEntry => strLt b.name a.name) ts with
    | [] => none
    | t :: _ => some t

/-- get_current_transcript: the path of the current entry. -/
def get_current_transcript (dir : List FileInfo) : Option (List Char) :=
  (get_current_entry dir).map (fun t => t.path)

/-- Directory lookup by file name, modelling path.exists() and open(path)
for a path TRANSCRIPTS_DIR / name. -/
def lookupFile (dir : List FileInfo) (name : List Char) : Option FileInfo :=
  dir.find? (fun f => f.name == name)

/-- The text read from the named file.  Listing entries always name files of
the same directory, so the fallback empty string is never reached from them
(a vanished file would raise an uncaught IOError, outside this model). -/
def contentOfName (dir : List FileInfo) (name : List Char) : List Char :=
  match lookupFile dir name with
  | some f => f.content
  | none => []

/-- read_transcript: decode the raw text; with a truthy tail value t, split
on line breaks and keep the slice lines[-t:]. -/
def read_transcript (raw : List Char) (tail : Option Int) : List Char :=
  let decoded := decode_unicode_escapes raw
  match tail with
  | none => decoded
  | some t =>
    if t == 0 then decoded
    else joinNl (pySliceFrom (splitNl decoded) (-t))

/-- One reported match of a search: 1-based line number and the line text
truncated to 200 characters. -/
structure MatchLine where
  line : Nat
  text : List Char
deriving DecidableEq

/-- One search result: file name plus its reported matches (the dict key is
named matches in the source; that word is reserved in Lean). -/
structure SearchResult where
  file : List Char
  matchesList : List MatchLine
deriving DecidableEq

/-- search_transcripts: lower the query once; a file is included when the
lowered query occurs in the lowered decoded content; its matches are the
lines whose lowered text contains the lowered query, each truncated to 200
characters, the whole list capped at the first 10. -/
def search_transcripts (dir : List FileInfo) (query : List Char) : List SearchResult :=
  let ql := pyLower query
  (get_transcript_list dir).filterMap (fun t =>
    let content := read_transcript (contentOfName dir t.name) none
    if pyIn ql (pyLower content) then
      let ms := ((enumFrom 1 (splitNl content)).filter
          (fun p => pyIn ql (pyLower p.2))).map
        (fun p => MatchLine.mk p.1 (p.2.take 200))
      some ⟨t.name, ms.take 10⟩
    else none)

/-- The 80-character rule line of the combiner banners. -/
def ruleLine : List Char := List.replicate 80 '='

/-- combine_all_transcripts: all transcripts sorted by name, each preceded by
a banner block, the pieces joined by line breaks. -/
def combine_all_transcripts (dir : List FileInfo) : List Char :=
  joinNl ((sortBy (fun a b : TEntry => strLt a.name b.name)
      (get_transcript_list dir)).flatMap
    (fun t =>
      [('\n' :: ruleLine),
       "=== FILE: ".data ++ t.name ++ " ===".data,
       ruleLine ++ ['\n'],
       read_transcript (contentOfName dir t.name) none]))

/-- A JSON value as produced by json.loads.  Numbers keep their lexeme: the
extractor only ever tests a number for truthiness or fails on it, so the
numeric value itself is never needed. -/
inductive JVal where
  | jnull : JVal
  | jbool (b : Bool) : JVal
  | jnum (lexeme : List Char) : JVal
  | jstr (s : List Char) : JVal
  | jarr (items : List JVal) : JVal
  | jobj (fields : List (List Char × JVal)) : JVal

/-- JSON inter-token whitespace. -/
def jsonWs (c : Char) : Bool :=
  c == ' ' || c == '\t' || c == '\n' || c == '\r'

/-- Skip JSON whitespace. -/
def skipWs (s : List Char) : List Char :=
  s.dropWhile jsonWs

/-- Body of a JSON string literal after the opening quote: returns the decoded
characters and the rest after the closing quote.  Unescaped control characters
and invalid escapes are rejected, as by json.loads in strict mode.  Lone
surrogate escapes, which Python tolerates, cannot inhabit Char and are
rejected; surrogate pairs are combined as Python combines them.  No claim
exercises lone surrogates inside JSON strings. -/
def parseStrChars : List Char → Option (List Char × List Char)
  | [] => none
  | '"' :: rest => some ([], rest)
  | '\\' :: e :: rest =>
    match e with
    | '"' => (parseStrChars rest).map (fun p => ('"' :: p.1, p.2))
    | '\\' => (parseStrChars rest).map (fun p => ('\\' :: p.1, p.2))
    | '/' => (parseStrChars rest).map (fun p => ('/' :: p.1, p.2))
    | 'b' => (parseStrChars rest).map (fun p => ('\x08' :: p.1, p.2))
    | 'f' => (parseStrChars rest).map (fun p => ('\x0c' :: p.1, p.2))
    | 'n' => (parseStrChars rest).map (fun p => ('\n' :: p.1, p.2))
    | 'r' => (parseStrChars rest).map (fun p => ('\r' :: p.1, p.2))
    | 't' => (parseStrChars rest).map (fun p => ('\t' :: p.1, p.2))
    | 'u' =>
      match rest with
      | h1 :: h2 :: h3 :: h4 :: rest2 =>
        match hexVal? h1, hexVal? h2, hexVal? h3, hexVal? h4 with
        | some a, some b, some c, some d =>
          let cp := ((a * 16 + b) * 16 + c) * 16 + d
          if cp < 0xD800 ∨ 0xDFFF < cp then
            (parseStrChars rest2).map (fun p => (Char.ofNat cp :: p.1, p.2))
          else if cp ≤ 0xDBFF then
            match rest2 with
            | '\\' :: 'u' :: g1 :: g2 :: g3 :: g4 :: rest3 =>
              match hexVal? g1, hexVal? g2, hexVal? g3, hexVal? g4 with
              | some a2, some b2, some c2, some d2 =>
                let lo := ((a2 * 16 + b2) * 16 + c2) * 16 + d2
                if 0xDC00 ≤ lo ∧ lo ≤ 0xDFFF then
                  let combined := 0x10000 + (cp - 0xD800) * 0x400 + (lo - 0xDC00)
                  (parseStrChars rest3).map (fun p => (Char.ofNat combined :: p.1, p.2))
                else none
              | _, _, _, _ => none
            | _ => none
          else none
        | _, _, _, _ => none
      | _ => none
    | _ => none
  | c :: rest =>
    if c.toNat < 0x20 then none
    else (parseStrChars rest).map (fun p => (c :: p.1, p.2))

/-- Decimal digit test for the JSON number grammar. -/
def isDig (c : Char) : Bool := '0' ≤ c && c ≤ '9'

/-- Optional fraction and exponent of a JSON number lexeme, given the sign
and integer part already consumed. -/
def parseNumFrac (sign intPart : List Char) (r : List Char) :
    Option (List Char × List Char) :=
  let fr : Option (List Char × List Char) :=
    match r with
    | '.' :: r2 =>
      if (r2.takeWhile isDig).isEmpty then none
      else some ('.' :: r2.takeWhile isDig, r2.dropWhile isDig)
    | _ => some ([], r)
  match fr with
  | none => none
  | some (fracPart, r3) =>
    let ex : Option (List Char × List Char) :=
      match r3 with
      | 'e' :: '+' :: r4 =>
        if (r4.takeWhile isDig).isEmpty then none
        else some ('e' :: '+' :: r4.takeWhile isDig, r4.dropWhile isDig)
      | 'e' :: '-' :: r4 =>
        if (r4.takeWhile isDig).isEmpty then none
        else some ('e' :: '-' :: r4.takeWhile isDig, r4.dropWhile isDig)
      | 'e' :: r4 =>
        if (r4.takeWhile isDig).isEmpty then none
        else some ('e' :: r4.takeWhile isDig, r4.dropWhile isDig)
      | 'E' :: '+' :: r4 =>
        if (r4.takeWhile isDig).isEmpty then none
        else some ('E' :: '+' :: r4.takeWhile isDig, r4.dropWhile isDig)
      | 'E' :: '-' :: r4 =>
        if (r4.takeWhile isDig).isEmpty then none
        else some ('E' :: '-' :: r4.takeWhile isDig, r4.dropWhile isDig)
      | 'E' :: r4 =>
        if (r4.takeWhile isDig).isEmpty then none
        else some ('E' :: r4.takeWhile isDig, r4.dropWhile isDig)
      | _ => some ([], r3)
    match ex with
    | none => none
    | some (expPart, r5) => some (sign ++ intPart ++ fracPart ++ expPart, r5)

/-- A JSON number lexeme: optional minus sign, integer part 0 or a nonzero
digit followed by digits, optional fraction, optional exponent, exactly the
number regular expression of the json module.  Returns the lexeme and the
rest. -/
def parseNum (s : List Char) : Option (List Char × List Char) :=
  let neg : List Char × List Char :=
    match s with
    | '-' :: r => (['-'], r)
    | _ => ([], s)
  match neg.2 with
  | '0' :: r => parseNumFrac neg.1 ['0'] r
  | c :: r =>
    if '1' ≤ c ∧ c ≤ '9' then
      parseNumFrac neg.1 (c :: r.takeWhile isDig) (r.dropWhile isDig)
    else none
  | [] => none

mutual

/-- One JSON value at the given position.  Fuel bounds the recursion depth;
the top-level call supplies more fuel than any input can consume, so the
fuel-exhausted branch is unreachable from jsonLoads. -/
def parseJValue : Nat → List Char → Option (JVal × List Char)
  | 0, _ => none
  | fuel + 1, s =>
    match s with
    | '{' :: r =>
      match skipWs r with
      | '}' :: r2 => some (.jobj [], r2)
      | r1 => (parseObjFields fuel r1).map (fun p => (.jobj p.1, p.2))
    | '[' :: r =>
      match skipWs r with
      | ']' :: r2 => some (.jarr [], r2)
      | r1 => (parseArrElems fuel r1).map (fun p => (.jarr p.1, p.2))
    | '"' :: r => (parseStrChars r).map (fun p => (.jstr p.1, p.2))
    | 't' :: 'r' :: 'u' :: 'e' :: r => some (.jbool true, r)
    | 'f' :: 'a' :: 'l' :: 's' :: 'e' :: r => some (.jbool false, r)
    | 'n' :: 'u' :: 'l' :: 'l' :: r => some (.jnull, r)
    | 'N' :: 'a' :: 'N' :: r => some (.jnum "NaN".data, r)
    | 'I' :: 'n' :: 'f' :: 'i' :: 'n' :: 'i' :: 't' :: 'y' :: r =>
      some (.jnum "Infinity".data, r)
    | '-' :: 'I' :: 'n' :: 'f' :: 'i' :: 'n' :: 'i' :: 't' :: 'y' :: r =>
      some (.jnum "-Infinity".data, r)
    | _ => (parseNum s).map (fun p => (.jnum p.1, p.2))

/-- The elements of a non-empty JSON array, positioned at the first element
(whitespace already skipped); consumes the closing bracket. -/
def parseArrElems : Nat → List Char → Option (List JVal × List Char)
  | 0, _ => none
  | fuel + 1, s =>
    match parseJValue fuel s with
    | none => none
    | some (v, r) =>
      match skipWs r with
      | ',' :: r2 => (parseArrElems fuel (skipWs r2)).map (fun p => (v :: p.1, p.2))
      | ']' :: r2 => some ([v], r2)
      | _ => none

/-- The members of a non-empty JSON object, positioned at the first key
(whitespace already skipped); consumes the closing brace. -/
def parseObjFields : Nat → List Char → Option (List (List Char × JVal) × List Char)
  | 0, _ => none
  | fuel + 1, s =>
    match s with
    | '"' :: r =>
      match parseStrChars r with
      | none => none
      | some (key, r1) =>
        match skipWs r1 with
        | ':' :: r2 =>
          match parseJValue fuel (skipWs r2) with
          | none => none
          | some (v, r3) =>
            match skipWs r3 with
            | ',' :: r4 =>
              (parseObjFields fuel (skipWs r4)).map (fun p => ((key, v) :: p.1, p.2))
            | '}' :: r4 => some ([(key, v)], r4)
            | _ => none
        | _ => none
    | _ => none

end

/-- json.loads: parse one JSON document, allowing surrounding whitespace and
rejecting trailing data.  Every recursive parser call consumes at least one
character first, so the fuel can never run out at this depth. -/
def jsonLoads (s : List Char) : Option JVal :=
  match parseJValue (2 * s.length + 2) (skipWs s) with
  | some (v, r) => if (skipWs r).isEmpty then some v else none
  | none => none

/-- dict.get on a parsed JSON object: later duplicate keys overwrite earlier
ones in a Python dict, so the last binding wins. -/
def jget (fields : List (List Char × JVal)) (key : List Char) : Option JVal :=
  (fields.reverse.find? (fun p => p.1 == key)).map (fun p => p.2)

/-- Whether a number lexeme denotes zero: it has a digit and no nonzero digit
in the mantissa (the exponent cannot make a nonzero mantissa zero).  NaN and
Infinity have no digits in this position and are truthy, as in Python. -/
def numIsZero (lexeme : List Char) : Bool :=
  let mantissa := lexeme.takeWhile (fun c => !(c == 'e' || c == 'E'))
  mantissa.any isDig && mantissa.all (fun c => !('1' ≤ c && c ≤ '9'))

/-- Python truthiness of a decoded JSON value (None, False, zero numbers and
empty containers are falsy). -/
def jtruthy : JVal → Bool
  | .jnull => false
  | .jbool b => b
  | .jnum l => !numIsZero l
  | .jstr s => !s.isEmpty
  | .jarr xs => !xs.isEmpty
  | .jobj fs => !fs.isEmpty

/-- item.get(key) == "some string": only a string value compares equal. -/
def isStrEq (v : Option JVal) (s : List Char) : Bool :=
  match v with
  | some (.jstr t) => t == s
  | _ => false

/-- One extracted message: a lowercased role and a stripped text. -/
structure Message where
  role : List Char
  text : List Char
deriving DecidableEq

/-- The one uncaught Python exception reachable in extract_messages:
calling .get or .strip on a value that has no such attribute. -/
inductive PyErr where
  | attributeError : PyErr
deriving DecidableEq

/-- The loop body of extract_messages for one array element: a non-dict
element fails on item.get; a dict with type equal to the string text and a
truthy text value yields one message after stripping, unless the text value
is not a string, which fails on .strip. -/
def itemMsg (role : List Char) : JVal → Except PyErr (List Message)
  | .jobj fields =>
    if isStrEq (jget fields "type".data) "text".data then
      match jget fields "text".data with
      | none => .ok []
      | some v =>
        if jtruthy v then
          match v with
          | .jstr s =>
            let t := pyStrip s
            if t = [] ∨ t = [' '] then .ok []
            else .ok [⟨pyLower role, t⟩]
          | _ => .error .attributeError
        else .ok []
    else .ok []
  | _ => .error .attributeError

/-- The extraction loop over the elements of one parsed array; an exception
anywhere aborts the whole extraction. -/
def itemsMsgs (role : List Char) : List JVal → Except PyErr (List Message)
  | [] => .ok []
  | it :: rest => do
    let m ← itemMsg role it
    let ms ← itemsMsgs role rest
    pure (m ++ ms)

/-- The prefix of the input up to and including its first line-break-bracket
pair, or none when no such pair occurs. -/
def scanToNl : List Char → Option (List Char)
  | '\n' :: ']' :: _ => some ['\n', ']']
  | c :: rest => (scanToNl rest).map (fun l => c :: l)
  | [] => none

/-- The fragment found by re.search of an opening bracket, a lazy any-character
run, then a line break and closing bracket: the match starts at the first
opening bracket and extends minimally to the first following line-break plus
closing bracket.  If the first opening bracket is not followed by such a pair
then no later one is either, so there is no match. -/
def findArrayFragment : List Char → Option (List Char)
  | [] => none
  | '[' :: rest =>
    match scanToNl rest with
    | some frag => some ('[' :: frag)
    | none => none
  | _ :: rest => findArrayFragment rest

/-- The segments after the first marker of the re.split pattern: a marker is
a line break, one of the two role words with a colon, a line break, the word
Content with a colon, and a line break.  Each marker starts a new segment
whose text runs to the next marker or the end of the input, exactly the
odd/even positions of re.split with one capturing group; the scan is leftmost
and non-overlapping, and the two alternatives differ in their second
character, so the pattern order is exact. -/
def segsAux (role : List Char) (acc : List Char) : List Char → List (List Char × List Char)
  | '\n' :: 'H' :: 'u' :: 'm' :: 'a' :: 'n' :: ':' :: '\n' ::
    'C' :: 'o' :: 'n' :: 't' :: 'e' :: 'n' :: 't' :: ':' :: '\n' :: rest =>
    (role, acc.reverse) :: segsAux "Human".data [] rest
  | '\n' :: 'A' :: 's' :: 's' :: 'i' :: 's' :: 't' :: 'a' :: 'n' :: 't' :: ':' :: '\n' ::
    'C' :: 'o' :: 'n' :: 't' :: 'e' :: 'n' :: 't' :: ':' :: '\n' :: rest =>
    (role, acc.reverse) :: segsAux "Assistant".data [] rest
  | c :: rest => segsAux role (c :: acc) rest
  | [] => [(role, acc.reverse)]

/-- The role-marked segments of the input: text before the first marker is
discarded (the loop of extract_messages starts at index 1), and each marker
contributes the pair of its captured role and the following text. -/
def roleSegments : List Char → List (List Char × List Char)
  | '\n' :: 'H' :: 'u' :: 'm' :: 'a' :: 'n' :: ':' :: '\n' ::
    'C' :: 'o' :: 'n' :: 't' :: 'e' :: 'n' :: 't' :: ':' :: '\n' :: rest =>
    segsAux "Human".data [] rest
  | '\n' :: 'A' :: 's' :: 's' :: 'i' :: 's' :: 't' :: 'a' :: 'n' :: 't' :: ':' :: '\n' ::
    'C' :: 'o' :: 'n' :: 't' :: 'e' :: 'n' :: 't' :: ':' :: '\n' :: rest =>
    segsAux "Assistant".data [] rest
  | _ :: rest => roleSegments rest
  | [] => []

/-- The parsed JSON of one segment: none when the segment has no array
fragment or when json.loads raises the decode error the source catches. -/
def segData (jc : List Char) : Option JVal :=
  match findArrayFragment jc with
  | none => none
  | some frag => jsonLoads frag

/-- The segment loop of extract_messages: an empty segment text is falsy and
skipped; a segment whose fragment is missing or unparsable contributes
nothing; a parsed array is folded by the item loop; messages of all segments
are concatenated.  A successful parse of a fragment, which begins with an
opening bracket, is always an array, so the remaining constructor case is
unreachable and mirrors the skip. -/
def processSegments : List (List Char × List Char) → Except PyErr (List Message)
  | [] => .ok []
  | (role, jc) :: rest =>
    if jc.isEmpty then processSegments rest
    else
      match segData jc with
      | none => processSegments rest
      | some (.jarr items) => do
        let ms ← itemsMsgs role items
        let rs ← processSegments rest
        pure (ms ++ rs)
      | some _ => processSegments rest

/-- extract_messages: split the content on the role-marker pattern and fold
the segment loop. -/
def extract_messages (content : List Char) : Except PyErr (List Message) :=
  processSegments (roleSegments content)

/-- format_messages: each message becomes a block of a line break, the
bracketed upper-case role label, the text truncated to max_length characters
with an ellipsis when a truthy max_length is exceeded, and a closing line
break; blocks are joined by line breaks. -/
def format_messages (msgs : List Message) (maxLength : Option Int) : List Char :=
  joinNl (msgs.map (fun m =>
    let label := if m.role == "human".data then "HUMAN".data else "CLAUDE".data
    let text :=
      match maxLength with
      | some L =>
        if !(L == 0) ∧ L < (m.text.length : Int) then
          pySliceTo m.text L ++ "...".data
        else m.text
      | none => m.text
    ('\n' :: '[' :: []) ++ label ++ "]:\n".data ++ text ++ ['\n']))

/-- The parsed command line: argparse defaults are false for the flags and
None for the value options. -/
structure Args where
  list : Bool
  allFlag : Bool
  file : Option (List Char)
  search : Option (List Char)
  tail : Option Int
  messages : Bool
  output : Option (List Char)
  truncate : Option Int
deriving DecidableEq

/-- Truthiness of an optional string argument: None and the empty string are
falsy in the elif chain of main. -/
def strOptTruthy : Option (List Char) → Bool
  | none => false
  | some s => !s.isEmpty

/-- The observable outcome of a run of main that does not raise: the exit
status, the payloads of the print calls on standard output and on the error
stream in order, and the optionally written output file with its text. -/
structure MainOutcome where
  exitCode : Nat
  stdout : List (List Char)
  stderr : List (List Char)
  written : Option (List Char × List Char)
deriving DecidableEq

/-- Decimal rendering of a natural number, as Python str of an int. -/
def natChars (n : Nat) : List Char := (Nat.repr n).data

/-- The size column of the listing: size/1024 formatted with one decimal.
The source formats a binary float; this integer rendering rounds the tenths
half up, which can differ from float formatting in the last digit on exact
ties.  No claim inspects this text. -/
def sizeKB (size : Nat) : List Char :=
  let tenths := (size * 10 + 512) / 1024
  natChars (tenths / 10) ++ ('.' :: natChars (tenths % 10))

/-- The header line of the list mode. -/
def foundHeader (n : Nat) : List Char :=
  "Found ".data ++ natChars n ++ " transcripts:\n".data

/-- One entry line of the list mode. -/
def listEntryLine (t : TEntry) : List Char :=
  "  ".data ++ t.name ++ " (".data ++ sizeKB t.size ++ " KB)".data

/-- The no-match line of the search mode. -/
def noMatchLine (q : List Char) : List Char :=
  "No matches for: ".data ++ q

/-- The printed lines for one search result: a banner with the file name,
then one line per match with its line number and the match text further
truncated to 80 characters before a trailing ellipsis. -/
def searchResultLines (r : SearchResult) : List (List Char) :=
  ("=== ".data ++ r.file ++ " ===".data) ::
    r.matchesList.map (fun m =>
      "  L".data ++ natChars m.line ++ ": ".data ++ m.text.take 80 ++ "...".data)

/-- How the content-producing branches of main end: either an early error
exit that prints one line on standard output and exits with status 1, or a
selected result string together with the diagnostic lines already sent to the
error stream. -/
inductive Selection where
  | errorExit (stdoutLine : List Char) : Selection
  | content (result : List Char) (stderrLines : List (List Char)) : Selection

/-- The all / file / default branches of main.  A named file that does not
exist prints the error line with plain print, hence on standard output, and
exits with status 1; an empty default listing does the same; the default mode
announces the chosen file name on the error stream. -/
def selectResult (dir : List FileInfo) (args : Args) : Selection :=
  if args.allFlag then .content (combine_all_transcripts dir) []
  else if strOptTruthy args.file then
    let fname := match args.file with | some f => f | none => []
    match lookupFile dir fname with
    | none => .errorExit ("Error: ".data ++ fname ++ " not found".data)
    | some f => .content (read_transcript f.content args.tail) []
  else
    match get_current_entry dir with
    | none => .errorExit "No transcripts found".data
    | some t =>
      .content (read_transcript (contentOfName dir t.name) args.tail)
        ["Current: ".data ++ t.name ++ ('\n' :: [])]

/-- main: the elif chain over the flags.  List and search modes print and
return with status 0.  The other modes select a result, optionally replace it
by the formatted extracted messages, which can raise the uncaught attribute
error of extract_messages, then either write it to the output file or print
it when non-empty. -/
def mainRun (dir : List FileInfo) (args : Args) : Except PyErr MainOutcome :=
  if args.list then
    let ts := get_transcript_list dir
    .ok ⟨0, foundHeader ts.length :: ts.map listEntryLine, [], none⟩
  else if strOptTruthy args.search then
    let q := match args.search with | some s => s | none => []
    let rs := search_transcripts dir q
    if rs.isEmpty then .ok ⟨0, [noMatchLine q], [], none⟩
    else .ok ⟨0, rs.flatMap searchResultLines, [], none⟩
  else
    match selectResult dir args with
    | .errorExit line => .ok ⟨1, [line], [], none⟩
    | .content result errLines =>
      let result2 : Except PyErr (List Char) :=
        if args.messages ∧ !result.isEmpty then
          (extract_messages result).map (fun ms => format_messages ms args.truncate)
        else .ok result
      match result2 with
      | .error e => .error e
      | .ok r2 =>
        if strOptTruthy args.output then
          let p := match args.output with | some s => s | none => []
          .ok ⟨0, ["Saved: ".data ++ p], errLines, some (p, r2)⟩
        else if !r2.isEmpty then .ok ⟨0, [r2], errLines, none⟩
        else .ok ⟨0, [], errLines, none⟩

/-! ### Helper lemmas -/

theorem strLt_irrefl (s : List Char) : strLt s s = false := by
  induction s with
  | nil => rfl
  | cons a as ih => simp [strLt, ih]

theorem strLt_asymm : ∀ {a b : List Char}, strLt a b = true → strLt b a = false
  | [], [] => by simp [strLt]
  | [], _ :: _ => by intro _; rfl
  | _ :: _, [] => by simp [strLt]
  | x :: as, y :: bs => by
    intro h
    simp only [strLt] at h ⊢
    rcases Nat.lt_trichotomy x.toNat y.toNat with hlt | heq | hgt
    · have h1 : ¬ y.toNat < x.toNat := by omega
      simp [h1, hlt]
    · have h1 : ¬ x.toNat < y.toNat := by omega
      have h2 : ¬ y.toNat < x.toNat := by omega
      simp only [h1, if_false, h2] at h ⊢
      exact strLt_asymm h
    · have h1 : ¬ x.toNat < y.toNat := by omega
      simp [h1, hgt] at h

theorem strLt_nil (s : List Char) : strLt s [] = false := by
  cases s <;> rfl

theorem strLt_neg_trans :
    ∀ {a b c : List Char}, strLt a b = false → strLt b c = false → strLt a c = false
  | a, [], c => by
    intro _ h2
    cases c with
    | nil => exact strLt_nil a
    | cons z cs => simp [strLt] at h2
  | [], _ :: _, _ => by intro h1 _; simp [strLt] at h1
  | x :: as, y :: bs, [] => by intro _ _; exact strLt_nil _
  | x :: as, y :: bs, z :: cs => by
    intro h1 h2
    simp only [strLt] at h1 h2 ⊢
    by_cases hxy : x.toNat < y.toNat
    · rw [if_pos hxy] at h1; exact absurd h1 (by simp)
    · by_cases hyz : y.toNat < z.toNat
      · rw [if_pos hyz] at h2; exact absurd h2 (by simp)
      · by_cases hyx : y.toNat < x.toNat
        · have e2 : z.toNat < x.toNat := by omega
          have e1 : ¬ x.toNat < z.toNat := by omega
          rw [if_neg e1, if_pos e2]
        · by_cases hzy : z.toNat < y.toNat
          · have e2 : z.toNat < x.toNat := by omega
            have e1 : ¬ x.toNat < z.toNat := by omega
            rw [if_neg e1, if_pos e2]
          · have e1 : ¬ x.toNat < z.toNat := by omega
            have e2 : ¬ z.toNat < x.toNat := by omega
            rw [if_neg hxy, if_neg hyx] at h1
            rw [if_neg hyz, if_neg hzy] at h2
            rw [if_neg e1, if_neg e2]
            exact strLt_neg_trans h1 h2

theorem mem_insertLt {α : Type} (lt : α → α → Bool) (a x : α) :
    ∀ l : List α, x ∈ insertLt lt a l ↔ x = a ∨ x ∈ l := by
  intro l
  induction l with
  | nil => simp [insertLt]
  | cons b bs ih =>
    simp only [insertLt]
    split
    · simp only [List.mem_cons, ih]
      tauto
    · simp [List.mem_cons]

theorem mem_sortBy {α : Type} (lt : α → α → Bool) (x : α) :
    ∀ l : List α, x ∈ sortBy lt l ↔ x ∈ l := by
  intro l
  induction l with
  | nil => simp [sortBy]
  | cons a as ih => simp [sortBy, mem_insertLt, ih]

/-- The first element of the stable insertion sort is a member of the input
list and no member is strictly below it, provided the strict comparison is
irreflexive, asymmetric and negatively transitive. -/
theorem sortBy_head_min {α : Type} (lt : α → α → Bool)
    (hirr : ∀ a, lt a a = false)
    (hasym : ∀ a b, lt a b = true → lt b a = false)
    (hneg : ∀ a b c, lt a b = false → lt b c = false → lt a c = false) :
    ∀ l : List α, l ≠ [] →
      ∃ t rest, sortBy lt l = t :: rest ∧ t ∈ l ∧ ∀ u ∈ l, lt u t = false
  | [], h => absurd rfl h
  | [a], _ => by
    refine ⟨a, [], by simp [sortBy, insertLt], by simp, ?_⟩
    intro u hu
    simp at hu
    subst hu
    exact hirr _
  | a :: b :: bs, _ => by
    obtain ⟨t, rest, hsort, htmem, htmin⟩ :=
      sortBy_head_min lt hirr hasym hneg (b :: bs) (by simp)
    have hstep : sortBy lt (a :: b :: bs) = insertLt lt a (sortBy lt (b :: bs)) := rfl
    rw [hstep, hsort]
    simp only [insertLt]
    by_cases hta : lt t a = true
    · refine ⟨t, insertLt lt a rest, by simp [hta], List.mem_cons_of_mem a htmem, ?_⟩
      intro u hu
      rcases List.mem_cons.mp hu with hu | hu
      · subst hu; exact hasym t u hta
      · exact htmin u hu
    · have hta' : lt t a = false := by
        cases h : lt t a
        · rfl
        · exact absurd h hta
      refine ⟨a, t :: rest, by simp [hta'], by simp, ?_⟩
      intro u hu
      rcases List.mem_cons.mp hu with hu | hu
      · subst hu; exact hirr u
      · exact hneg u t a (htmin u hu) hta'

theorem hex4_valid {d1 d2 d3 d4 : Char} {a b c d : Nat}
    (h1 : hexVal? d1 = some a) (h2 : hexVal? d2 = some b)
    (h3 : hexVal? d3 = some c) (h4 : hexVal? d4 = some d) :
    hex4? d1 d2 d3 d4 = some (((a * 16 + b) * 16 + c) * 16 + d) := by
  simp [hex4?, h1, h2, h3, h4]

theorem hex4_first_bad {d1 d2 d3 d4 : Char} (h1 : hexVal? d1 = none) :
    hex4? d1 d2 d3 d4 = none := by
  simp [hex4?, h1]

theorem decodeAux_esc (d1 d2 d3 d4 : Char) (rest : List Char) (fuel : Nat) :
    decodeAux ('\\' :: 'u' :: d1 :: d2 :: d3 :: d4 :: rest) (fuel + 6) =
      match hex4? d1 d2 d3 d4 with
      | some cp =>
        if 0xD800 ≤ cp ∧ cp ≤ 0xDFFF then
          '\\' :: 'u' :: d1 :: d2 :: d3 :: d4 :: decodeAux rest fuel
        else
          Char.ofNat cp :: decodeAux rest fuel
      | none => '\\' :: decodeAux ('u' :: d1 :: d2 :: d3 :: d4 :: rest) (fuel + 5) := rfl

theorem decodeAux_u (rest : List Char) (fuel : Nat) :
    decodeAux ('u' :: rest) (fuel + 1) = 'u' :: decodeAux rest fuel := rfl

theorem decode_ne_nil : ∀ s : List Char, decode_unicode_escapes s = [] ↔ s = [] := by
  intro s
  constructor
  · intro h
    cases s with
    | nil => rfl
    | cons c rest =>
      exfalso
      unfold decode_unicode_escapes at h
      rw [decodeAux.eq_def] at h
      repeat' split at h
      all_goals simp_all
  · intro h
    subst h
    rfl

theorem decode_escape_valid (d1 d2 d3 d4 : Char) (a b c d : Nat)
    (h1 : hexVal? d1 = some a) (h2 : hexVal? d2 = some b)
    (h3 : hexVal? d3 = some c) (h4 : hexVal? d4 = some d) (rest : List Char) :
    decode_unicode_escapes ('\\' :: 'u' :: d1 :: d2 :: d3 :: d4 :: rest) =
      if 0xD800 ≤ ((a * 16 + b) * 16 + c) * 16 + d ∧
          ((a * 16 + b) * 16 + c) * 16 + d ≤ 0xDFFF then
        '\\' :: 'u' :: d1 :: d2 :: d3 :: d4 :: decode_unicode_escapes rest
      else
        Char.ofNat (((a * 16 + b) * 16 + c) * 16 + d) :: decode_unicode_escapes rest := by
  unfold decode_unicode_escapes
  have hlen : ('\\' :: 'u' :: d1 :: d2 :: d3 :: d4 :: rest).length = rest.length + 6 := by
    simp only [List.length_cons]
  rw [hlen, decodeAux_esc, hex4_valid h1 h2 h3 h4]

theorem decode_escape_malformed (e : Char) (he : hexVal? e = none) (rest : List Char) :
    decode_unicode_escapes ('\\' :: 'u' :: e :: rest) =
      '\\' :: 'u' :: decode_unicode_escapes (e :: rest) := by
  match rest with
  | x :: y :: z :: r =>
    unfold decode_unicode_escapes
    have hlen : ('\\' :: 'u' :: e :: x :: y :: z :: r).length = r.length + 6 := by
      simp only [List.length_cons]
    rw [hlen, decodeAux_esc, hex4_first_bad he]
    have h5 : r.length + 5 = (r.length + 4) + 1 := by omega
    rw [h5, decodeAux_u]
    have h4 : (e :: x :: y :: z :: r).length = r.length + 4 := by
      simp only [List.length_cons]
    rw [h4]
  | [] => rfl
  | [x] => rfl
  | [x, y] => rfl

theorem splitNl_ne_nil (s : List Char) : splitNl s ≠ [] := by
  induction s with
  | nil => simp [splitNl]
  | cons c rest ih =>
    simp only [splitNl]
    split
    · simp
    · split <;> simp

theorem splitNl_no_nl : ∀ (s : List Char), ∀ l ∈ splitNl s, '\n' ∉ l := by
  intro s
  induction s with
  | nil =>
    intro l hl
    simp [splitNl] at hl
    subst hl
    simp
  | cons c rest ih =>
    intro l hl
    simp only [splitNl] at hl
    split at hl
    · rcases List.mem_cons.mp hl with h | h
      · subst h; simp
      · exact ih l h
    · rename_i hc
      split at hl
      · rename_i l0 ls0 heq0
        rcases List.mem_cons.mp hl with h | h
        · subst h
          intro hmem
          rcases List.mem_cons.mp hmem with h | h
          · exact hc h.symm
          · have hm : l0 ∈ splitNl rest := by
              rw [heq0]; exact List.mem_cons_self l0 ls0
            exact ih l0 hm h
        · have hm : l ∈ splitNl rest := by
            rw [heq0]; exact List.mem_cons_of_mem l0 h
          exact ih l hm
      · simp at hl
        subst hl
        intro hmem
        rcases List.mem_cons.mp hmem with h | h
        · exact hc h.symm
        · simp at h

theorem splitNl_append (l rest : List Char) (hl : '\n' ∉ l) :
    splitNl (l ++ '\n' :: rest) = l :: splitNl rest := by
  induction l with
  | nil => rfl
  | cons c cl ih =>
    have hc : c ≠ '\n' := fun h => hl (by simp [h])
    have hcl : '\n' ∉ cl := fun h => hl (List.mem_cons_of_mem _ h)
    rw [List.cons_append]
    simp only [splitNl, if_neg hc]
    rw [ih hcl]

theorem splitNl_single (l : List Char) (hl : '\n' ∉ l) : splitNl l = [l] := by
  induction l with
  | nil => rfl
  | cons c cl ih =>
    have hc : c ≠ '\n' := fun h => hl (by simp [h])
    have hcl : '\n' ∉ cl := fun h => hl (List.mem_cons_of_mem _ h)
    simp only [splitNl, if_neg hc]
    rw [ih hcl]

theorem splitNl_joinNl : ∀ ls : List (List Char), ls ≠ [] →
    (∀ l ∈ ls, '\n' ∉ l) → splitNl (joinNl ls) = ls
  | [], h, _ => absurd rfl h
  | [l], _, hnl => by
    rw [show joinNl [l] = l from rfl]
    exact splitNl_single l (hnl l (by simp))
  | l :: l2 :: ls, _, hnl => by
    rw [show joinNl (l :: l2 :: ls) = l ++ '\n' :: joinNl (l2 :: ls) from rfl]
    rw [splitNl_append l _ (hnl l (by simp))]
    rw [splitNl_joinNl (l2 :: ls) (by simp)
      (fun x hx => hnl x (List.mem_cons_of_mem l hx))]

theorem isPre_pyIn {n s : List Char} (h : isPre n s = true) : pyIn n s = true := by
  cases s with
  | nil =>
    cases n with
    | nil => rfl
    | cons a as => simp [isPre] at h
  | cons c t => simp [pyIn, h]

theorem pyIn_cons {n : List Char} (c : Char) {t : List Char} (h : pyIn n t = true) :
    pyIn n (c :: t) = true := by
  simp [pyIn, h]

theorem pyIn_append_left {n s : List Char} (pre : List Char) (h : pyIn n s = true) :
    pyIn n (pre ++ s) = true := by
  induction pre with
  | nil => exact h
  | cons c cs ih => exact pyIn_cons c ih

theorem isPre_self_append (s suf : List Char) : isPre s (s ++ suf) = true := by
  induction s with
  | nil => rfl
  | cons c cs ih => simp [isPre, ih]

theorem pyIn_sandwich (n pre suf : List Char) : pyIn n (pre ++ n ++ suf) = true := by
  rw [List.append_assoc]
  exact pyIn_append_left pre (isPre_pyIn (isPre_self_append n suf))

theorem charOfNat_toNat {n : Nat} (h : Nat.isValidChar n) : (Char.ofNat n).toNat = n := by
  simp only [Char.ofNat, dif_pos h, Char.ofNatAux, Char.toNat, UInt32.toNat]
  simp [BitVec.toNat_ofNatLt]

theorem toLower_ne_nl {c : Char} (hc : c ≠ '\n') : Char.toLower c ≠ '\n' := by
  show (if c.toNat ≥ 65 ∧ c.toNat ≤ 90 then Char.ofNat (c.toNat + 32) else c) ≠ '\n'
  by_cases hr : c.toNat ≥ 65 ∧ c.toNat ≤ 90
  · rw [if_pos hr]
    intro h
    have hv : Nat.isValidChar (c.toNat + 32) := Or.inl (by omega)
    have h2 := congrArg Char.toNat h
    rw [charOfNat_toNat hv] at h2
    have h10 : ('\n').toNat = 10 := rfl
    rw [h10] at h2
    omega
  · rw [if_neg hr]
    exact hc

theorem splitNl_pyLower (s : List Char) :
    splitNl (pyLower s) = (splitNl s).map pyLower := by
  induction s with
  | nil => rfl
  | cons c rest ih =>
    show splitNl (Char.toLower c :: pyLower rest) = _
    by_cases hc : c = '\n'
    · subst hc
      show splitNl ('\n' :: pyLower rest) = (splitNl ('\n' :: rest)).map pyLower
      rw [show splitNl ('\n' :: pyLower rest) = [] :: splitNl (pyLower rest) from by
        simp [splitNl]]
      rw [show splitNl ('\n' :: rest) = [] :: splitNl rest from by simp [splitNl]]
      rw [List.map_cons, ih]
      rfl
    · have hcl : Char.toLower c ≠ '\n' := toLower_ne_nl hc
      simp only [splitNl, if_neg hcl, if_neg hc]
      rw [ih]
      rcases hsp : splitNl rest with _ | ⟨l0, ls⟩
      · exact absurd hsp (splitNl_ne_nil rest)
      · simp [pyLower]

theorem isPre_firstLine : ∀ (q s : List Char), '\n' ∉ q → isPre q s = true →
    ∃ l ls, splitNl s = l :: ls ∧ isPre q l = true := by
  intro q
  induction q with
  | nil =>
    intro s _ _
    rcases hsp : splitNl s with _ | ⟨l, ls⟩
    · exact absurd hsp (splitNl_ne_nil s)
    · exact ⟨l, ls, rfl, rfl⟩
  | cons a q' ih =>
    intro s hnl hp
    cases s with
    | nil => simp [isPre] at hp
    | cons b t =>
      simp only [isPre, Bool.and_eq_true, beq_iff_eq] at hp
      obtain ⟨rfl, hp'⟩ := hp
      have ha : a ≠ '\n' := fun h => hnl (by simp [h])
      have hq' : '\n' ∉ q' := fun h => hnl (List.mem_cons_of_mem _ h)
      obtain ⟨l, ls, hsp, hpre⟩ := ih t hq' hp'
      refine ⟨a :: l, ls, ?_, ?_⟩
      · simp only [splitNl, if_neg ha]
        rw [hsp]
      · simp [isPre, hpre]

theorem pyIn_line (q : List Char) : ∀ (s : List Char), '\n' ∉ q → pyIn q s = true →
    ∃ l ∈ splitNl s, pyIn q l = true := by
  intro s
  induction s with
  | nil =>
    intro _ h
    simp only [pyIn] at h
    have hq : q = [] := by simpa using h
    subst hq
    exact ⟨[], by simp [splitNl], rfl⟩
  | cons c t ih =>
    intro hnl h
    simp only [pyIn, Bool.or_eq_true] at h
    rcases h with h | h
    · obtain ⟨l, ls, hsp, hpre⟩ := isPre_firstLine q (c :: t) hnl h
      exact ⟨l, by rw [hsp]; simp, isPre_pyIn hpre⟩
    · obtain ⟨l, hl, hql⟩ := ih hnl h
      by_cases hc : c = '\n'
      · subst hc
        refine ⟨l, ?_, hql⟩
        show l ∈ splitNl ('\n' :: t)
        rw [show splitNl ('\n' :: t) = [] :: splitNl t from by simp [splitNl]]
        exact List.mem_cons_of_mem _ hl
      · rcases hsp : splitNl t with _ | ⟨l0, ls⟩
        · exact absurd hsp (splitNl_ne_nil t)
        · rw [hsp] at hl
          rcases List.mem_cons.mp hl with rfl | hmem
          · refine ⟨c :: l, ?_, pyIn_cons c hql⟩
            simp only [splitNl, if_neg hc]
            rw [hsp]
            exact List.mem_cons_self _ _
          · refine ⟨l, ?_, hql⟩
            simp only [splitNl, if_neg hc]
            rw [hsp]
            exact List.mem_cons_of_mem _ hmem

theorem enumFrom_mem {α : Type} (x : α) : ∀ (l : List α) (n : Nat), x ∈ l →
    ∃ i, (i, x) ∈ enumFrom n l := by
  intro l
  induction l with
  | nil => intro n h; simp at h
  | cons a as ih =>
    intro n h
    rcases List.mem_cons.mp h with rfl | h
    · exact ⟨n, by simp [enumFrom]⟩
    · obtain ⟨i, hi⟩ := ih (n + 1) h
      exact ⟨i, by simp [enumFrom]; exact Or.inr hi⟩

/-! ### Claim theorems -/

/-- C2: applying message extraction to the input consisting of a line break,
the line Human:, the line Content:, a JSON array holding one object with type
text and text hi, closed by a line holding only a closing bracket, yields
exactly one message, whose role is the lowercase string human and whose text
is hi. -/
theorem claim_C2 :
    extract_messages "\nHuman:\nContent:\n[\n\x7b\"type\":\"text\",\"text\":\"hi\"\x7d\n]\n".data =
      Except.ok [⟨"human".data, "hi".data⟩] := rfl

/-- C9: extract_messages only catches JSON decode errors: on an input whose
role-marked segment holds the JSON array of one bare string, the array parses
successfully, and extraction aborts with the uncaught attribute error raised
by calling .get on the string element, so extraction is not total over all
text inputs. -/
theorem claim_C9 :
    segData "[\n\"x\"\n]\n".data = some (JVal.jarr [JVal.jstr ['x']]) ∧
    extract_messages "\nHuman:\nContent:\n[\n\"x\"\n]\n".data =
      Except.error PyErr.attributeError :=
  ⟨rfl, rfl⟩

/-- C5: extraction processes the role-marked segments of the input in order,
and a segment whose embedded JSON fragment is found but fails to parse is
skipped silently: it emits no message and no error, and the remaining
segments are processed exactly as if the failing segment were absent. -/
theorem claim_C5 (content : List Char) (role jc frag : List Char)
    (rest : List (List Char × List Char))
    (hfrag : findArrayFragment jc = some frag) (hparse : jsonLoads frag = none) :
    extract_messages content = processSegments (roleSegments content) ∧
    processSegments ((role, jc) :: rest) = processSegments rest := by
  constructor
  · rfl
  · have hsd : segData jc = none := by
      unfold segData
      rw [hfrag]
      exact hparse
    have hjc : jc.isEmpty = false := by
      cases jc
      · simp [findArrayFragment] at hfrag
      · rfl
    rw [processSegments]
    rw [hjc]
    simp only [Bool.false_eq_true, if_false]
    rw [hsd]

/-- Witness for C5: a segment holding an array fragment of invalid JSON is
skipped and the following well-formed segment still produces its message. -/
theorem claim_C5_witness :
    findArrayFragment "[\noops\n]".data = some "[\noops\n]".data ∧
    jsonLoads "[\noops\n]".data = none ∧
    processSegments
        [("Human".data, "[\noops\n]".data),
         ("Human".data, "[\n\x7b\"type\":\"text\",\"text\":\"hi\"\x7d\n]".data)] =
      processSegments
        [("Human".data, "[\n\x7b\"type\":\"text\",\"text\":\"hi\"\x7d\n]".data)] :=
  ⟨rfl, rfl,
    (claim_C5 [] "Human".data "[\noops\n]".data "[\noops\n]".data
      [("Human".data, "[\n\x7b\"type\":\"text\",\"text\":\"hi\"\x7d\n]".data)] rfl rfl).2⟩

/-- C6: the escape decoder resolves an escape of four valid hex digits whose
code point lies outside the surrogate range to the corresponding character
and continues after it; an escape whose code point lies in the surrogate
range 0xD800-0xDFFF is kept verbatim as literal text; and a malformed escape,
whose first digit position is not a hex digit, is left as literal text with
scanning resuming after the backslash-u prefix. -/
theorem claim_C6 (d1 d2 d3 d4 : Char) (a b c d : Nat)
    (h1 : hexVal? d1 = some a) (h2 : hexVal? d2 = some b)
    (h3 : hexVal? d3 = some c) (h4 : hexVal? d4 = some d) (rest : List Char)
    (e : Char) (he : hexVal? e = none) (rest2 : List Char) :
    (decode_unicode_escapes ('\\' :: 'u' :: d1 :: d2 :: d3 :: d4 :: rest) =
      if 0xD800 ≤ ((a * 16 + b) * 16 + c) * 16 + d ∧
          ((a * 16 + b) * 16 + c) * 16 + d ≤ 0xDFFF then
        '\\' :: 'u' :: d1 :: d2 :: d3 :: d4 :: decode_unicode_escapes rest
      else
        Char.ofNat (((a * 16 + b) * 16 + c) * 16 + d) :: decode_unicode_escapes rest) ∧
    decode_unicode_escapes ('\\' :: 'u' :: e :: rest2) =
      '\\' :: 'u' :: decode_unicode_escapes (e :: rest2) :=
  ⟨decode_escape_valid d1 d2 d3 d4 a b c d h1 h2 h3 h4 rest,
   decode_escape_malformed e he rest2⟩

/-- Witness for C6: the escape 0041 decodes to the letter A, the surrogate
escape D800 stays literal, and the malformed escape with digit Z stays
literal. -/
theorem claim_C6_witness :
    decode_unicode_escapes "\\u0041x".data = "Ax".data ∧
    decode_unicode_escapes "\\uD800".data = "\\uD800".data ∧
    decode_unicode_escapes "\\uZZZZ".data = "\\uZZZZ".data := by
  refine ⟨?_, ?_, ?_⟩
  · rw [show ("\\u0041x".data : List Char) =
        '\\' :: 'u' :: '0' :: '0' :: '4' :: '1' :: "x".data from rfl]
    rw [(claim_C6 '0' '0' '4' '1' 0 0 4 1 rfl rfl rfl rfl "x".data 'Z' rfl []).1]
    decide
  · rw [show ("\\uD800".data : List Char) =
        '\\' :: 'u' :: 'D' :: '8' :: '0' :: '0' :: [] from rfl]
    rw [(claim_C6 'D' '8' '0' '0' 13 8 0 0 rfl rfl rfl rfl [] 'Z' rfl []).1]
    decide
  · rw [show ("\\uZZZZ".data : List Char) = '\\' :: 'u' :: 'Z' :: "ZZZ".data from rfl]
    rw [(claim_C6 '0' '0' '4' '1' 0 0 4 1 rfl rfl rfl rfl [] 'Z' rfl "ZZZ".data).2]
    decide

/-- C10: calling read_transcript with tail 0 returns the entire decoded file
content rather than zero lines, because the zero value is falsy and disables
tailing; consequently the result is empty exactly when the file is empty. -/
theorem claim_C10 (content : List Char) :
    read_transcript content (some 0) = decode_unicode_escapes content ∧
    (read_transcript content (some 0) = [] ↔ content = []) := by
  have h0 : read_transcript content (some 0) = decode_unicode_escapes content := by
    unfold read_transcript
    simp
  exact ⟨h0, by rw [h0]; exact decode_ne_nil content⟩

/-- C7: reading with a positive tail of n that does not exceed the line count
returns exactly the last n lines of the decoded content with line breaks
preserved: splitting the result on line breaks gives precisely the final n
elements of the split decoded content. -/
theorem claim_C7 (content : List Char) (n : Nat) (h1 : 1 ≤ n)
    (h2 : n ≤ (splitNl (decode_unicode_escapes content)).length) :
    splitNl (read_transcript content (some (n : Int))) =
      (splitNl (decode_unicode_escapes content)).drop
        ((splitNl (decode_unicode_escapes content)).length - n) ∧
    (splitNl (read_transcript content (some (n : Int)))).length = n := by
  have hnz : ((n : Int) == 0) = false := by
    simp only [beq_eq_false_iff_ne, ne_eq, Int.natCast_eq_zero]
    omega
  have hread : read_transcript content (some (n : Int)) =
      joinNl ((splitNl (decode_unicode_escapes content)).drop
        ((splitNl (decode_unicode_escapes content)).length - n)) := by
    show (if (((n : Int)) == 0) = true then decode_unicode_escapes content
      else joinNl (pySliceFrom (splitNl (decode_unicode_escapes content)) (-(n : Int)))) = _
    rw [hnz]
    simp only [Bool.false_eq_true, if_false]
    unfold pySliceFrom
    have hneg : ¬ (0 ≤ -(n : Int)) := by omega
    rw [if_neg hneg]
    have htn : (-(-(n : Int))).toNat = n := by
      rw [neg_neg, Int.toNat_natCast]
    rw [htn]
  have hdropne : (splitNl (decode_unicode_escapes content)).drop
      ((splitNl (decode_unicode_escapes content)).length - n) ≠ [] := by
    intro hnil
    have := congrArg List.length hnil
    rw [List.length_drop] at this
    simp at this
    omega
  have hdropnl : ∀ l ∈ (splitNl (decode_unicode_escapes content)).drop
      ((splitNl (decode_unicode_escapes content)).length - n), '\n' ∉ l :=
    fun l hl => splitNl_no_nl _ l (List.mem_of_mem_drop hl)
  have hsplit : splitNl (read_transcript content (some (n : Int))) =
      (splitNl (decode_unicode_escapes content)).drop
        ((splitNl (decode_unicode_escapes content)).length - n) := by
    rw [hread]
    exact splitNl_joinNl _ hdropne hdropnl
  refine ⟨hsplit, ?_⟩
  rw [hsplit, List.length_drop]
  omega

/-- The ten-line sample file of the C7 witness. -/
def c7content : List Char := "l0\nl1\nl2\nl3\nl4\nl5\nl6\nl7\nl8\nl9".data

/-- Witness for C7: tailing a ten-line file with n equal to 3 returns exactly
its last three lines. -/
theorem claim_C7_witness :
    1 ≤ 3 ∧ 3 ≤ (splitNl (decode_unicode_escapes c7content)).length ∧
    (splitNl (read_transcript c7content (some ((3 : Nat) : Int))) =
        (splitNl (decode_unicode_escapes c7content)).drop
          ((splitNl (decode_unicode_escapes c7content)).length - 3) ∧
      (splitNl (read_transcript c7content (some ((3 : Nat) : Int)))).length = 3) :=
  ⟨by decide, by decide, claim_C7 c7content 3 (by decide) (by decide)⟩

/-- C1: whenever the transcript listing is non-empty, get_current_transcript
returns the path of a listed entry whose name no other listed name exceeds in
code-point order, i.e. the lexicographically-last transcript name, the first
element of the descending sort; and default mode prints that entry's decoded,
optionally tailed content on standard output after announcing the chosen file
name on the error stream, exiting with status 0. -/
theorem claim_C1 (dir : List FileInfo) (hne : get_transcript_list dir ≠ []) :
    ∃ t ∈ get_transcript_list dir,
      get_current_transcript dir = some t.path ∧
      (∀ u ∈ get_transcript_list dir, strLt t.name u.name = false) ∧
      (∀ tl : Option Int,
        mainRun dir ⟨false, false, none, none, tl, false, none, none⟩ =
          Except.ok ⟨0,
            if (read_transcript (contentOfName dir t.name) tl).isEmpty then []
            else [read_transcript (contentOfName dir t.name) tl],
            ["Current: ".data ++ t.name ++ ['\n']], none⟩) := by
  obtain ⟨t, rest, hsort, htmem, htmin⟩ :=
    sortBy_head_min (fun a b : TEntry => strLt b.name a.name)
      (fun a => strLt_irrefl a.name)
      (fun a b h => strLt_asymm h)
      (fun a b c h1 h2 => strLt_neg_trans h2 h1)
      (get_transcript_list dir) hne
  have hie : (get_transcript_list dir).isEmpty = false := by
    rcases h : (get_transcript_list dir).isEmpty
    · rfl
    · exact absurd (List.isEmpty_iff.mp h) hne
  have hce : get_current_entry dir = some t := by
    unfold get_current_entry
    simp only [hie, Bool.false_eq_true, if_false]
    rw [hsort]
  refine ⟨t, htmem, ?_, ?_, ?_⟩
  · unfold get_current_transcript
    rw [hce]
    rfl
  · exact htmin
  · intro tl
    have hsel : selectResult dir ⟨false, false, none, none, tl, false, none, none⟩ =
        Selection.content (read_transcript (contentOfName dir t.name) tl)
          ["Current: ".data ++ t.name ++ ['\n']] := by
      simp only [selectResult, strOptTruthy, Bool.false_eq_true, if_false, hce]
    simp only [mainRun, strOptTruthy, Bool.false_eq_true, if_false, hsel,
      Bool.not_eq_true', false_and]
    by_cases hre : (read_transcript (contentOfName dir t.name) tl).isEmpty
    · simp [hre]
    · simp [hre]

/-- C8: the transcript listing never contains an entry named journal.txt,
whatever the directory holds. -/
theorem claim_C8 (dir : List FileInfo) :
    ∀ t ∈ get_transcript_list dir, t.name ≠ "journal.txt".data := by
  intro t ht
  simp only [get_transcript_list, List.mem_map, List.mem_filter] at ht
  obtain ⟨f, ⟨hf1, hf2⟩, rfl⟩ := ht
  simpa using hf2

/-- Sample directory used by the C1 and C8 witnesses: two transcripts out of
name order, the reserved journal file and a non-txt file. -/
def dirA : List FileInfo :=
  [⟨"b.txt".data, 5, 0, "B".data⟩,
   ⟨"journal.txt".data, 9, 0, "J".data⟩,
   ⟨"a.txt".data, 3, 0, "A".data⟩,
   ⟨"notes.log".data, 2, 0, "L".data⟩]

/-- Witness for C1: on the sample directory the listing is non-empty and the
selected current transcript is as the theorem states. -/
theorem claim_C1_witness :
    get_transcript_list dirA ≠ [] ∧
    ∃ t ∈ get_transcript_list dirA,
      get_current_transcript dirA = some t.path ∧
      (∀ u ∈ get_transcript_list dirA, strLt t.name u.name = false) ∧
      (∀ tl : Option Int,
        mainRun dirA ⟨false, false, none, none, tl, false, none, none⟩ =
          Except.ok ⟨0,
            if (read_transcript (contentOfName dirA t.name) tl).isEmpty then []
            else [read_transcript (contentOfName dirA t.name) tl],
            ["Current: ".data ++ t.name ++ ['\n']], none⟩) :=
  ⟨by decide, claim_C1 dirA (by decide)⟩

/-- Witness for C8: the sample directory contains journal.txt, the a.txt
entry is listed, and its name differs from the reserved name. -/
theorem claim_C8_witness :
    (⟨"a.txt".data, 3, 0, transcriptsDir ++ "a.txt".data⟩ : TEntry) ∈
        get_transcript_list dirA ∧
    (⟨"a.txt".data, 3, 0, transcriptsDir ++ "a.txt".data⟩ : TEntry).name ≠
      "journal.txt".data :=
  ⟨by decide, claim_C8 dirA _ (by decide)⟩

/-- Counterexample for C3: requesting the missing file x.txt from an empty
directory exits with status 1 and prints the error line on standard output,
while the error stream stays empty, contradicting the claim that the message
goes to the error stream and not standard output. -/
theorem claim_C3_counterexample :
    mainRun [] ⟨false, false, some "x.txt".data, none, none, false, none, none⟩ =
      Except.ok ⟨1, ["Error: x.txt not found".data], [], none⟩ := rfl

/-- C3 as amended: every file-mode invocation naming a file that does not
exist in the transcript directory exits with status 1 and prints a short
message containing the file name on standard output; nothing is printed on
the error stream. -/
theorem claim_C3_amended (dir : List FileInfo) (args : Args) (fname : List Char)
    (hl : args.list = false) (hs : strOptTruthy args.search = false)
    (ha : args.allFlag = false) (hf : args.file = some fname) (hne : fname ≠ [])
    (hmiss : lookupFile dir fname = none) :
    mainRun dir args =
      Except.ok ⟨1, ["Error: ".data ++ fname ++ " not found".data], [], none⟩ ∧
    pyIn fname ("Error: ".data ++ fname ++ " not found".data) = true := by
  have hft : strOptTruthy (some fname) = true := by
    simp [strOptTruthy, hne]
  have hsel : selectResult dir args =
      Selection.errorExit ("Error: ".data ++ fname ++ " not found".data) := by
    simp only [selectResult, ha, Bool.false_eq_true, if_false, hf, hft, if_true, hmiss]
  constructor
  · simp only [mainRun, hl, Bool.false_eq_true, if_false, hs, hsel]
  · exact pyIn_sandwich fname "Error: ".data " not found".data

/-- Witness for C3 as amended: the missing file x.txt on an empty directory
produces exit status 1, the message on standard output and an empty error
stream, and the message contains the file name. -/
theorem claim_C3_witness :
    mainRun [] ⟨false, false, some "x.txt".data, none, none, false, none, none⟩ =
      Except.ok ⟨1, ["Error: ".data ++ "x.txt".data ++ " not found".data], [], none⟩ ∧
    pyIn "x.txt".data ("Error: ".data ++ "x.txt".data ++ " not found".data) = true :=
  claim_C3_amended [] ⟨false, false, some "x.txt".data, none, none, false, none, none⟩
    "x.txt".data rfl rfl rfl rfl (by decide) rfl

/-- Directory of the C4 counterexample: one transcript of two lines. -/
def dirC4 : List FileInfo := [⟨"a.txt".data, 3, 0, "x\ny".data⟩]

/-- Counterexample for C4: searching for a query that contains a line break
includes the file, because the file-level containment test sees the whole
content, yet no single line contains the query, so the result entry has an
empty list of matching lines, contradicting the claim for every query. -/
theorem claim_C4_counterexample :
    search_transcripts dirC4 "x\ny".data = [⟨"a.txt".data, []⟩] ∧
    (splitNl (read_transcript (contentOfName dirC4 "a.txt".data) none)).all
      (fun l => !pyIn (pyLower "x\ny".data) (pyLower l)) = true :=
  ⟨rfl, rfl⟩

/-- C4 as amended: for every query that contains no line break, a file
appears in the search results only if at least one of its decoded lines
contains the query case-insensitively, and no result entry has an empty list
of matching lines. -/
theorem claim_C4_amended (dir : List FileInfo) (query : List Char)
    (hq : '\n' ∉ query) :
    ∀ r ∈ search_transcripts dir query,
      r.matchesList ≠ [] ∧
      ∃ t ∈ get_transcript_list dir, t.name = r.file ∧
        ∃ l ∈ splitNl (read_transcript (contentOfName dir t.name) none),
          pyIn (pyLower query) (pyLower l) = true := by
  intro r hr
  simp only [search_transcripts, List.mem_filterMap] at hr
  obtain ⟨t, ht, heq⟩ := hr
  split at heq
  case isFalse => simp at heq
  case isTrue hcond =>
    simp only [Option.some.injEq] at heq
    subst heq
    have hnlq : '\n' ∉ pyLower query := by
      intro hmem
      simp only [pyLower, List.mem_map] at hmem
      obtain ⟨c, hc, hlc⟩ := hmem
      by_cases h : c = '\n'
      · exact hq (h ▸ hc)
      · exact toLower_ne_nl h hlc
    obtain ⟨l, hl, hql⟩ :=
      pyIn_line (pyLower query)
        (pyLower (read_transcript (contentOfName dir t.name) none)) hnlq hcond
    rw [splitNl_pyLower] at hl
    obtain ⟨l', hl', rfl⟩ := List.mem_map.mp hl
    obtain ⟨i, hi⟩ := enumFrom_mem l'
      (splitNl (read_transcript (contentOfName dir t.name) none)) 1 hl'
    refine ⟨?_, t, ht, rfl, l', hl', hql⟩
    intro h0
    rw [List.take_eq_nil_iff] at h0
    rcases h0 with h0 | h0
    · exact absurd h0 (by decide)
    · rw [List.map_eq_nil_iff] at h0
      rw [List.filter_eq_nil_iff] at h0
      exact h0 (i, l') hi hql

/-- Directory of the C4 witness: one transcript whose second line matches
the query. -/
def dirC4w : List FileInfo := [⟨"a.txt".data, 11, 0, "hello\nworld".data⟩]

/-- Witness for C4 as amended: the upper-case query WORLD has no line break,
the file is reported with the non-empty match on its second line, and that
line contains the query case-insensitively. -/
theorem claim_C4_witness :
    (⟨"a.txt".data, [⟨2, "world".data⟩]⟩ : SearchResult) ∈
        search_transcripts dirC4w "WORLD".data ∧
    ((⟨"a.txt".data, [⟨2, "world".data⟩]⟩ : SearchResult).matchesList ≠ [] ∧
      ∃ t ∈ get_transcript_list dirC4w,
        t.name = (⟨"a.txt".data, [⟨2, "world".data⟩]⟩ : SearchResult).file ∧
        ∃ l ∈ splitNl (read_transcript (contentOfName dirC4w t.name) none),
          pyIn (pyLower "WORLD".data) (pyLower l) = true) :=
  ⟨by decide, claim_C4_amended dirC4w "WORLD".data (by decide) _ (by decide)⟩

end GetTranscript
